import Mathlib

set_option maxRecDepth 8000

/- Verification of the fuzzy-deduplication core of src/app.py:
similarity scoring, prefix blocking, greedy duplicate grouping, and
result annotation. -/

namespace FuzzyDedup

/-- A cell of the input table: `none` models a missing value (`pd.isna`),
`some s` models a present value already stringified (`str(val)`). -/
abbrev Cell := Option String

/-- `sep.join(parts)`: Python string join. -/
def joinWith (sep : String) : List String → String
  | [] => ""
  | [s] => s
  | s :: rest => s ++ sep ++ joinWith sep rest

/-- The ComparisonText of a row:
`' '.join(str(val) for val in row if pd.notna(val))` (src/app.py lines 12-13
and line 19 build exactly this string). -/
def rowText (row : List Cell) : String := joinWith " " (row.filterMap id)

/-- Split a character list on whitespace runs, dropping empty pieces:
the behaviour of Python `str.split()` used by the token-set measure.
`acc` holds the (reversed) characters of the current pending token. -/
def splitWsAux : List Char → List Char → List String
  | [], acc => if acc = [] then [] else [String.mk acc.reverse]
  | c :: cs, acc =>
    if c.isWhitespace then
      (if acc = [] then splitWsAux cs [] else String.mk acc.reverse :: splitWsAux cs [])
    else splitWsAux cs (c :: acc)

/-- The whitespace-separated tokens of a string (Python `s.split()`). -/
def pyTokens (s : String) : List String := splitWsAux s.data []

/-- Lexicographic (codepoint) comparison of character lists: the order Python's
`sorted` uses on strings.  Written as a plain recursive Boolean so the kernel
can evaluate it (`String.ltb` is not kernel-reducible). -/
def charListLe : List Char → List Char → Bool
  | [], _ => true
  | _ :: _, [] => false
  | a :: as, b :: bs => if a = b then charListLe as bs else decide (a < b)

/-- Lexicographic order on strings, as a proposition. -/
def strOrd (s t : String) : Prop := charListLe s.data t.data = true

instance : DecidableRel strOrd := fun s t =>
  inferInstanceAs (Decidable (charListLe s.data t.data = true))

/-- Modelled from the spec: the token *set* of a comparison string — the spec's
token-set measure compares the sets of whitespace-separated words
("scoring shared vs. distinct tokens", spec §4.1 and glossary).  Represented
canonically as a lexicographically sorted duplicate-free list. -/
def tokenSet (s : String) : List String := (List.insertionSort strOrd (pyTokens s)).dedup

/-- Length of a longest common subsequence (specification version). -/
def lcsSpec : List Char → List Char → Nat
  | [], _ => 0
  | _ :: _, [] => 0
  | a :: as, b :: bs =>
    if a = b then lcsSpec as bs + 1
    else max (lcsSpec (a :: as) bs) (lcsSpec as (b :: bs))
  termination_by xs ys => xs.length + ys.length
  decreasing_by all_goals (simp; try omega)

/-- One row of the LCS dynamic program.  If `prev` is the row of LCS values of
`xs` against every suffix of `ys` (longest suffix first), the result is the
row for `x :: xs`. -/
def lcsStep (x : Char) : List Char → List Nat → List Nat
  | [], _ => [0]
  | y :: ys, prev =>
    let tailRow := lcsStep x ys prev.tail
    (if x = y then prev.tail.headD 0 + 1 else max (prev.headD 0) (tailRow.headD 0)) :: tailRow

/-- All rows of the LCS dynamic program, built by recursion on `xs`. -/
def lcsRows (ys : List Char) : List Char → List Nat
  | [] => List.replicate (ys.length + 1) 0
  | x :: xs => lcsStep x ys (lcsRows ys xs)

/-- Longest-common-subsequence length, computed by dynamic programming
(efficient enough for kernel evaluation). -/
def lcsLen (xs ys : List Char) : Nat := (lcsRows ys xs).headD 0

/-- Exact rational division, written with `Rat.divInt` so that the kernel can
evaluate it (`Rat.div` is irreducible); `ratDiv_eq_div` below proves it equal
to ordinary division. -/
def ratDiv (a b : ℚ) : ℚ := Rat.divInt (a.num * b.den) (a.den * b.num)

theorem ratDiv_eq_div (a b : ℚ) : ratDiv a b = a / b := (Rat.div_def' a b).symm

/-- Modelled from the spec: the normalized indel similarity between two
strings, as a percentage — the pairwise string measure underlying the
token-set fuzzy similarity of spec §4.1 (`thefuzz.fuzz`, which is not part of
this repository).  Two strings score `200·lcs/(len₁+len₂)`; two empty strings
are identical, scoring 100. -/
def indelScore (a b : String) : ℚ :=
  let la := a.data.length
  let lb := b.data.length
  if la + lb = 0 then 100
  else Rat.divInt ((200 * lcsLen a.data b.data : Nat) : Int) ((la + lb : Nat) : Int)

/-- Modelled from the spec: the similarity of the joined shared-token sect
against the sect extended by one side's extra tokens (length `diffLen`,
separated by one space when the sect is nonempty).  This is the
"extra/missing words affect score proportionally to shared-token overlap"
part of spec §4.1. -/
def sectScore (sectLen diffLen : Nat) : ℚ :=
  let sep : Nat := if sectLen = 0 then 0 else 1
  let total := sectLen + (sectLen + sep + diffLen)
  if total = 0 then 100
  else Rat.divInt ((200 * sectLen : Nat) : Int) ((total : Nat) : Int)

/-- Modelled from the spec: the token-set fuzzy similarity measure, as a
percentage in [0,100] (spec §4.1: word-order-insensitive, full credit for
reordering, extra/missing words proportional to shared-token overlap; the
implementation used by the code is `thefuzz.fuzz.token_set_ratio`, not part
of this repository).  If either token set is empty the score is 0; if one
token set contains the other (and they share a token) the score is 100;
otherwise the best of the indel similarity of the two sorted difference
strings and the two sect-versus-sect-plus-difference similarities. -/
def tokenSetScore (s1 s2 : String) : ℚ :=
  let A := tokenSet s1
  let B := tokenSet s2
  if A = [] ∨ B = [] then 0
  else
    let inter := A.filter (fun t => t ∈ B)
    let dAB := A.filter (fun t => t ∉ B)
    let dBA := B.filter (fun t => t ∉ A)
    if inter ≠ [] ∧ (dAB = [] ∨ dBA = []) then 100
    else
      let sLen := (joinWith " " inter).data.length
      let abJ := joinWith " " dAB
      let baJ := joinWith " " dBA
      max (max (indelScore abJ baJ) (sectScore sLen abJ.data.length))
        (sectScore sLen baJ.data.length)

/-- `calculate_similarity` (src/app.py lines 9-14): concatenate the
non-missing fields of each row into strings and return the token-set fuzzy
similarity scaled to [0,1].  The fuzzy measure itself is modelled from the
spec (§4.1), since `thefuzz` is an external library. -/
def calculate_similarity (row1 row2 : List Cell) : ℚ :=
  ratDiv (tokenSetScore (rowText row1) (rowText row2)) 100

/-- Python `text[:n]` on a string (character slice). -/
def pyTake (s : String) (n : Nat) : String := String.mk (s.data.take n)

/-- Python `str.lower()`, character-wise (kernel-evaluable counterpart of
`String.toLower`). -/
def pyLower (s : String) : String := String.mk (s.data.map Char.toLower)

/-- Python `len(text)`: the number of characters. -/
def pyLen (s : String) : Nat := s.data.length

/-- Append row index `idx` to the entry for `key`, creating the entry at the
end if absent: the effect of `groups[key].append(idx)` on a `defaultdict`
whose iteration follows key-insertion order (src/app.py lines 22-26). -/
def addToGroups : List (String × List Nat) → String → Nat → List (String × List Nat)
  | [], key, idx => [(key, [idx])]
  | (k, v) :: gs, key, idx =>
    if k = key then (k, v ++ [idx]) :: gs else (k, v) :: addToGroups gs key idx

/-- The enumeration loop of `get_comparison_groups` (src/app.py lines 23-26):
rows are visited in order with their index; a row participates only when its
ComparisonText has at least `lc` characters, keyed by the lowercased
`lc`-character prefix. -/
def groupRowsAux (lc : Nat) : List String → Nat → List (String × List Nat) → List (String × List Nat)
  | [], _, gs => gs
  | t :: ts, idx, gs =>
    groupRowsAux lc ts (idx + 1)
      (if lc ≤ pyLen t then addToGroups gs (pyLower (pyTake t lc)) idx else gs)

/-- `get_comparison_groups` (src/app.py lines 16-29): group row indices by the
lowercased leading characters of their ComparisonText, then keep only groups
with more than one record. -/
def get_comparison_groups (df : List (List Cell)) (leading_chars : Nat) :
    List (String × List Nat) :=
  (groupRowsAux leading_chars (df.map rowText) 0 []).filter (fun kv => 1 < kv.2.length)

/-- `calculate_total_comparisons` (src/app.py lines 31-37):
`Σ n·(n-1)/2` over the groups. -/
def calculate_total_comparisons (groups : List (String × List Nat)) : Nat :=
  groups.foldl (fun total kv => total + kv.2.length * (kv.2.length - 1) / 2) 0

/-- Result of the inner loop of `find_duplicates` (src/app.py lines 65-80):
the indices matched into `current_group`, the updated `processed` set, and
the updated comparison counter. -/
structure InnerRes where
  found : List Nat
  processed : List Nat
  count : Nat

/-- The inner loop of `find_duplicates` (src/app.py lines 65-80): for each
later index `idx2` of the group not yet processed, compute the similarity to
row `idx1`, count the comparison, and on `similarity >= threshold` add `idx2`
to the current group and mark it processed.  `processed` is modelled as a
list used only through membership. -/
def innerScan (df : List (List Cell)) (threshold : ℚ) (idx1 : Nat) :
    List Nat → List Nat → Nat → InnerRes
  | [], processed, count => ⟨[], processed, count⟩
  | idx2 :: rest, processed, count =>
    if idx2 ∈ processed then innerScan df threshold idx1 rest processed count
    else if threshold ≤ calculate_similarity (df.getD idx1 []) (df.getD idx2 []) then
      let r := innerScan df threshold idx1 rest (idx2 :: processed) (count + 1)
      ⟨idx2 :: r.found, r.processed, r.count⟩
    else innerScan df threshold idx1 rest processed (count + 1)

/-- Result of scanning one comparison group (src/app.py lines 55-84). -/
structure GroupRes where
  processed : List Nat
  clusters : List (List Nat)
  count : Nat

/-- The anchor loop of `find_duplicates` over one group (src/app.py lines
58-84): each unprocessed `idx1` anchors a pass over the later indices; the
resulting `current_group` is emitted as a duplicate cluster when it has more
than one member, and `idx1` is marked processed. -/
def scanGroup (df : List (List Cell)) (threshold : ℚ) :
    List Nat → List Nat → List (List Nat) → Nat → GroupRes
  | [], processed, acc, count => ⟨processed, acc, count⟩
  | idx1 :: rest, processed, acc, count =>
    if idx1 ∈ processed then scanGroup df threshold rest processed acc count
    else
      let r := innerScan df threshold idx1 rest processed count
      let cur := idx1 :: r.found
      scanGroup df threshold rest (idx1 :: r.processed)
        (if 1 < cur.length then acc ++ [cur] else acc) r.count

/-- The outer loop of `find_duplicates` over `groups.values()`
(src/app.py line 55), threading `processed`, the emitted clusters and the
comparison counter. -/
def processGroups (df : List (List Cell)) (threshold : ℚ) :
    List (String × List Nat) → List Nat → List (List Nat) → Nat →
      List (List Nat) × Nat
  | [], _, acc, count => (acc, count)
  | (_, g) :: gs, processed, acc, count =>
    let r := scanGroup df threshold g processed acc count
    processGroups df threshold gs r.processed r.clusters r.count

/-- `find_duplicates` (src/app.py lines 39-88) together with the final value
of its comparison counter `comparison_count`. -/
def find_duplicates_full (df : List (List Cell)) (threshold : ℚ) (leading_chars : Nat) :
    List (List Nat) × Nat :=
  processGroups df threshold (get_comparison_groups df leading_chars) [] [] 0

/-- `find_duplicates` (src/app.py lines 39-88): the list of duplicate
clusters. -/
def find_duplicates (df : List (List Cell)) (threshold : ℚ) (leading_chars : Nat) :
    List (List Nat) :=
  (find_duplicates_full df threshold leading_chars).1

/-- The annotation loop of `main` (src/app.py lines 167-178): starting from
`duplicate_group = -1` and `duplicate_rows = ''` for every row, each emitted
cluster (1-based position `gi+1`) writes its group number and the
comma-separated 1-based sorted member row numbers into each member row. -/
def annotateAux (gi : Nat) : List (List Nat) → List (Int × String) → List (Int × String)
  | [], acc => acc
  | c :: cs, acc =>
    let sorted := List.insertionSort (· ≤ ·) c
    let rowsStr := joinWith ", " (sorted.map (fun idx => Nat.repr (idx + 1)))
    annotateAux (gi + 1) cs
      (sorted.foldl (fun a idx => a.set idx ((gi : Int) + 1, rowsStr)) acc)

/-- The derived columns `duplicate_group` and `duplicate_rows` of `main`
(src/app.py lines 167-178), one pair per row of a table with `n` rows. -/
def annotate (n : Nat) (clusters : List (List Nat)) : List (Int × String) :=
  annotateAux 0 clusters (List.replicate n (-1, ""))

/-- The specification row of the LCS dynamic program: the values of
`lcsSpec xs` against every suffix of `ys`, longest suffix first. -/
def specRow (xs ys : List Char) : List Nat := ys.tails.map (lcsSpec xs)

/-- The blocking key of a ComparisonText, when it has one: texts shorter than
`lc` characters get no key (src/app.py lines 24-25). -/
def keyOf (lc : Nat) (t : String) : Option String :=
  if lc ≤ pyLen t then some (pyLower (pyTake t lc)) else none

/-- The blocking key of row `i` of the table, when it has one: rows whose
ComparisonText is shorter than `lc` characters get no key and are excluded
from every block. -/
def keyTest (df : List (List Cell)) (lc : Nat) (i : Nat) : Option String :=
  keyOf lc (rowText (df.getD i []))

/-- All row indices of the table whose blocking key is `k`, in row order. -/
def keyClass (df : List (List Cell)) (lc : Nat) (k : String) : List Nat :=
  (List.range df.length).filter (fun i => keyTest df lc i = some k)

/-- The value stored for key `k` in an association list, `[]` when absent. -/
def valsOf : List (String × List Nat) → String → List Nat
  | [], _ => []
  | (k', v) :: gs, k => if k' = k then v else valsOf gs k

/-- The indices `i0, i0+1, …` of the texts `ts` whose blocking key is `k`. -/
def idxOf (lc : Nat) : List String → Nat → String → List Nat
  | [], _, _ => []
  | t :: ts, i0, k =>
    (if keyOf lc t = some k then [i0] else []) ++ idxOf lc ts (i0 + 1) k

/-- Clusters are pairwise disjoint: no index occurs in two of them. -/
def Disjointed (cs : List (List Nat)) : Prop :=
  cs.Pairwise (fun c d => ∀ x ∈ c, x ∉ d)

/- ### Lemmas about the string order used for token sets -/

theorem charListLe_total : ∀ as bs : List Char,
    charListLe as bs = true ∨ charListLe bs as = true
  | [], bs => by cases bs <;> simp [charListLe]
  | a :: as, [] => by simp [charListLe]
  | a :: as, b :: bs => by
    by_cases h : a = b
    · subst h
      simpa [charListLe] using charListLe_total as bs
    · rcases lt_or_gt_of_ne h with hlt | hgt
      · left; simp [charListLe, h, hlt]
      · right; simp [charListLe, Ne.symm h, hgt]

theorem charListLe_trans : ∀ as bs cs : List Char,
    charListLe as bs = true → charListLe bs cs = true → charListLe as cs = true
  | [], bs, cs, _, _ => by simp [charListLe]
  | a :: as, [], cs, h1, _ => by simp [charListLe] at h1
  | a :: as, b :: bs, [], _, h2 => by simp [charListLe] at h2
  | a :: as, b :: bs, c :: cs, h1, h2 => by
    by_cases hab : a = b
    · subst hab
      by_cases hac : a = c
      · subst hac
        simp only [charListLe, if_pos rfl] at h1 h2 ⊢
        exact charListLe_trans as bs cs h1 h2
      · simp only [charListLe, if_pos rfl] at h1
        simp only [charListLe, if_neg hac] at h2 ⊢
        exact h2
    · simp only [charListLe, if_neg hab, decide_eq_true_eq] at h1
      by_cases hbc : b = c
      · subst hbc
        simp only [charListLe, if_neg hab, decide_eq_true_eq]
        exact h1
      · simp only [charListLe, if_neg hbc, decide_eq_true_eq] at h2
        have hac : a < c := lt_trans h1 h2
        simp only [charListLe, if_neg (ne_of_lt hac), decide_eq_true_eq]
        exact hac

theorem charListLe_antisymm : ∀ as bs : List Char,
    charListLe as bs = true → charListLe bs as = true → as = bs
  | [], [], _, _ => rfl
  | [], b :: bs, _, h2 => by simp [charListLe] at h2
  | a :: as, [], h1, _ => by simp [charListLe] at h1
  | a :: as, b :: bs, h1, h2 => by
    by_cases hab : a = b
    · subst hab
      simp only [charListLe, if_pos rfl] at h1 h2
      rw [charListLe_antisymm as bs h1 h2]
    · simp only [charListLe, if_neg hab, decide_eq_true_eq] at h1
      simp only [charListLe, if_neg (Ne.symm hab), decide_eq_true_eq] at h2
      exact absurd h2 (lt_asymm h1)

instance : IsTotal String strOrd := ⟨fun s t => charListLe_total s.data t.data⟩

instance : IsTrans String strOrd :=
  ⟨fun a b c h1 h2 => charListLe_trans a.data b.data c.data h1 h2⟩

instance : IsAntisymm String strOrd :=
  ⟨fun a b h1 h2 => by
    cases a; cases b
    exact congrArg String.mk (charListLe_antisymm _ _ h1 h2)⟩

theorem tokenSet_sorted (s : String) : List.Sorted strOrd (tokenSet s) :=
  (List.sorted_insertionSort strOrd (pyTokens s)).sublist (List.dedup_sublist _)

theorem tokenSet_nodup (s : String) : (tokenSet s).Nodup := by
  have := List.nodup_dedup (List.insertionSort strOrd (pyTokens s))
  exact this

theorem mem_tokenSet {t : String} {s : String} : t ∈ tokenSet s ↔ t ∈ pyTokens s := by
  simp [tokenSet]

/-- Two sorted duplicate-free token lists with the same members are equal. -/
theorem sorted_nodup_ext {l1 l2 : List String}
    (s1 : List.Sorted strOrd l1) (s2 : List.Sorted strOrd l2)
    (n1 : l1.Nodup) (n2 : l2.Nodup) (h : ∀ x, x ∈ l1 ↔ x ∈ l2) : l1 = l2 :=
  List.eq_of_perm_of_sorted ((List.perm_ext_iff_of_nodup n1 n2).2 h) s1 s2

theorem interFilter_comm (s1 s2 : String) :
    (tokenSet s1).filter (fun t => t ∈ tokenSet s2)
      = (tokenSet s2).filter (fun t => t ∈ tokenSet s1) := by
  apply sorted_nodup_ext
  · exact (tokenSet_sorted s1).filter _
  · exact (tokenSet_sorted s2).filter _
  · exact (tokenSet_nodup s1).filter _
  · exact (tokenSet_nodup s2).filter _
  · intro x
    simp only [List.mem_filter, decide_eq_true_eq]
    exact ⟨fun ⟨h1, h2⟩ => ⟨h2, h1⟩, fun ⟨h1, h2⟩ => ⟨h2, h1⟩⟩

/- ### LCS: the dynamic program computes `lcsSpec`, which is symmetric -/

theorem lcsSpec_nil_left (ys : List Char) : lcsSpec [] ys = 0 := by
  simp [lcsSpec]

theorem lcsSpec_nil_right : ∀ xs : List Char, lcsSpec xs [] = 0
  | [] => by simp [lcsSpec]
  | x :: xs => by simp [lcsSpec]

theorem lcsSpec_comm : ∀ xs ys : List Char, lcsSpec xs ys = lcsSpec ys xs
  | [], ys => by rw [lcsSpec_nil_left, lcsSpec_nil_right]
  | x :: xs, [] => by rw [lcsSpec_nil_left, lcsSpec_nil_right]
  | x :: xs, y :: ys => by
    by_cases h : x = y
    · subst h
      simp only [lcsSpec, eq_self_iff_true, if_true]
      rw [lcsSpec_comm xs ys]
    · simp only [lcsSpec, if_neg h, if_neg (Ne.symm h)]
      rw [lcsSpec_comm (x :: xs) ys, lcsSpec_comm xs (y :: ys), Nat.max_comm]
  termination_by xs ys => xs.length + ys.length
  decreasing_by all_goals (simp; try omega)

theorem lcsSpec_le_left : ∀ xs ys : List Char, lcsSpec xs ys ≤ xs.length
  | [], ys => by rw [lcsSpec_nil_left]; exact Nat.zero_le _
  | x :: xs, [] => by rw [lcsSpec_nil_right]; exact Nat.zero_le _
  | x :: xs, y :: ys => by
    by_cases h : x = y
    · subst h
      simp only [lcsSpec, if_pos rfl, List.length_cons]
      exact Nat.succ_le_succ (lcsSpec_le_left xs ys)
    · simp only [lcsSpec, if_neg h, List.length_cons]
      exact Nat.max_le.2 ⟨lcsSpec_le_left (x :: xs) ys,
        Nat.le_succ_of_le (lcsSpec_le_left xs (y :: ys))⟩
  termination_by xs ys => xs.length + ys.length
  decreasing_by all_goals (simp; try omega)

theorem lcsSpec_le_right (xs ys : List Char) : lcsSpec xs ys ≤ ys.length := by
  rw [lcsSpec_comm]; exact lcsSpec_le_left ys xs

theorem specRow_nil (xs : List Char) : specRow xs [] = [lcsSpec xs []] := rfl

theorem specRow_cons (xs : List Char) (y : Char) (ys : List Char) :
    specRow xs (y :: ys) = lcsSpec xs (y :: ys) :: specRow xs ys := rfl

theorem specRow_headD (xs ys : List Char) : (specRow xs ys).headD 0 = lcsSpec xs ys := by
  cases ys with
  | nil => rfl
  | cons y ys => rfl

theorem specRow_tail (xs ys : List Char) : (specRow xs ys).tail = match ys with
    | [] => []
    | _ :: ys' => specRow xs ys' := by
  cases ys <;> rfl

theorem lcsStep_specRow (x : Char) (xs : List Char) : ∀ ys : List Char,
    lcsStep x ys (specRow xs ys) = specRow (x :: xs) ys
  | [] => by
    rw [specRow_nil, specRow_nil]
    simp [lcsStep, lcsSpec_nil_right]
  | y :: ys => by
    rw [specRow_cons]
    show lcsStep x (y :: ys) (lcsSpec xs (y :: ys) :: specRow xs ys) = _
    rw [lcsStep]
    simp only [List.tail_cons, List.headD_cons]
    rw [lcsStep_specRow x xs ys, specRow_headD, specRow_headD, specRow_cons]
    congr 1
    by_cases h : x = y
    · subst h
      rw [if_pos rfl]
      simp only [lcsSpec, eq_self_iff_true, if_true]
    · rw [if_neg h]
      simp only [lcsSpec, if_neg h]
      exact Nat.max_comm _ _

theorem lcsRows_eq_specRow (ys : List Char) : ∀ xs : List Char,
    lcsRows ys xs = specRow xs ys
  | [] => by
    rw [lcsRows, specRow]
    have : ∀ t ∈ ys.tails, lcsSpec [] t = 0 := fun t _ => lcsSpec_nil_left t
    rw [List.map_congr_left (fun t _ => lcsSpec_nil_left t)]
    simp [List.map_const', List.length_tails]
  | x :: xs => by
    rw [lcsRows, lcsRows_eq_specRow ys xs, lcsStep_specRow]

theorem lcsLen_eq_lcsSpec (xs ys : List Char) : lcsLen xs ys = lcsSpec xs ys := by
  rw [lcsLen, lcsRows_eq_specRow, specRow_headD]

theorem lcsLen_comm (xs ys : List Char) : lcsLen xs ys = lcsLen ys xs := by
  rw [lcsLen_eq_lcsSpec, lcsLen_eq_lcsSpec, lcsSpec_comm]

/- ### Score symmetry and bounds -/

theorem indelScore_comm (a b : String) : indelScore a b = indelScore b a := by
  simp only [indelScore]
  rw [lcsLen_comm b.data a.data, Nat.add_comm b.data.length a.data.length]

theorem divInt_nat_nonneg (m n : Nat) : 0 ≤ Rat.divInt ((m : Int)) ((n : Int)) := by
  rw [Rat.divInt_eq_div]
  apply div_nonneg <;> exact_mod_cast Nat.zero_le _

theorem divInt_nat_le_100 (m n : Nat) (h : m ≤ 100 * n) :
    Rat.divInt ((m : Int)) ((n : Int)) ≤ 100 := by
  rcases Nat.eq_zero_or_pos n with hn | hn
  · subst hn
    rw [show ((0 : Nat) : Int) = 0 from rfl, Rat.divInt_zero]
    norm_num
  · rw [Rat.divInt_eq_div]
    have hp : (0 : ℚ) < ((n : Int) : ℚ) := by exact_mod_cast hn
    rw [div_le_iff₀ hp]
    calc ((m : Int) : ℚ) ≤ (((100 * n : Nat) : Int) : ℚ) := by exact_mod_cast h
      _ = 100 * ((n : Int) : ℚ) := by push_cast; ring

theorem indelScore_nonneg (a b : String) : 0 ≤ indelScore a b := by
  simp only [indelScore]
  split_ifs with h
  · norm_num
  · exact divInt_nat_nonneg _ _

theorem indelScore_le_100 (a b : String) : indelScore a b ≤ 100 := by
  simp only [indelScore]
  split_ifs with h
  · norm_num
  · apply divInt_nat_le_100
    have h1 := lcsSpec_le_left a.data b.data
    have h2 := lcsSpec_le_right a.data b.data
    rw [lcsLen_eq_lcsSpec]
    omega

theorem sectScore_nonneg (sectLen diffLen : Nat) : 0 ≤ sectScore sectLen diffLen := by
  simp only [sectScore]
  split_ifs <;> first
    | exact divInt_nat_nonneg _ _
    | norm_num

theorem sectScore_le_100 (sectLen diffLen : Nat) : sectScore sectLen diffLen ≤ 100 := by
  simp only [sectScore]
  split_ifs <;> first
    | (apply divInt_nat_le_100; omega)
    | norm_num

theorem tokenSetScore_comm (s1 s2 : String) : tokenSetScore s1 s2 = tokenSetScore s2 s1 := by
  simp only [tokenSetScore]
  rw [interFilter_comm s1 s2]
  by_cases h1 : tokenSet s1 = []
  · rw [if_pos (Or.inl h1), if_pos (Or.inr h1)]
  · by_cases h2 : tokenSet s2 = []
    · rw [if_pos (Or.inr h2), if_pos (Or.inl h2)]
    · have hga : ¬(tokenSet s1 = [] ∨ tokenSet s2 = []) := by
        rintro (hc | hc)
        · exact h1 hc
        · exact h2 hc
      have hgb : ¬(tokenSet s2 = [] ∨ tokenSet s1 = []) := by
        rintro (hc | hc)
        · exact h2 hc
        · exact h1 hc
      rw [if_neg hga, if_neg hgb]
      by_cases hg : (tokenSet s2).filter (fun t => t ∈ tokenSet s1) ≠ [] ∧
          ((tokenSet s1).filter (fun t => t ∉ tokenSet s2) = [] ∨
            (tokenSet s2).filter (fun t => t ∉ tokenSet s1) = [])
      · rw [if_pos hg, if_pos ⟨hg.1, hg.2.symm⟩]
      · rw [if_neg hg, if_neg (fun hc => hg ⟨hc.1, hc.2.symm⟩)]
        rw [indelScore_comm]
        exact sup_right_comm _ _ _

theorem tokenSetScore_nonneg (s1 s2 : String) : 0 ≤ tokenSetScore s1 s2 := by
  simp only [tokenSetScore]
  split_ifs with h1 h2
  · norm_num
  · norm_num
  · exact le_max_of_le_left (le_max_of_le_left (indelScore_nonneg _ _))

theorem tokenSetScore_le_100 (s1 s2 : String) : tokenSetScore s1 s2 ≤ 100 := by
  simp only [tokenSetScore]
  split_ifs with h1 h2
  · norm_num
  · norm_num
  · exact max_le (max_le (indelScore_le_100 _ _) (sectScore_le_100 _ _))
      (sectScore_le_100 _ _)

theorem tokenSetScore_self (s : String) (h : tokenSet s ≠ []) : tokenSetScore s s = 100 := by
  simp only [tokenSetScore]
  rw [if_neg (by simp [h]), if_pos]
  refine ⟨?_, Or.inl ?_⟩
  · rw [List.filter_eq_self.mpr (fun a ha => by simpa using ha)]
    exact h
  · rw [List.filter_eq_nil_iff]
    intro a ha
    simpa using ha

theorem tokenSet_eq_nil_iff (s : String) : tokenSet s = [] ↔ pyTokens s = [] := by
  constructor <;> intro h
  · rw [List.eq_nil_iff_forall_not_mem]
    intro x hx
    have hm : x ∈ tokenSet s := mem_tokenSet.2 hx
    rw [h] at hm
    exact absurd hm (List.not_mem_nil x)
  · simp [tokenSet, h]

/- ### The similarity function: symmetry, range, self-similarity, emptiness -/

theorem calculate_similarity_comm (r1 r2 : List Cell) :
    calculate_similarity r1 r2 = calculate_similarity r2 r1 := by
  unfold calculate_similarity
  rw [tokenSetScore_comm]

theorem calculate_similarity_nonneg (r1 r2 : List Cell) :
    0 ≤ calculate_similarity r1 r2 := by
  unfold calculate_similarity
  rw [ratDiv_eq_div]
  exact div_nonneg (tokenSetScore_nonneg _ _) (by norm_num)

theorem calculate_similarity_le_one (r1 r2 : List Cell) :
    calculate_similarity r1 r2 ≤ 1 := by
  unfold calculate_similarity
  rw [ratDiv_eq_div, div_le_one (by norm_num)]
  exact tokenSetScore_le_100 _ _

theorem calculate_similarity_self (r : List Cell) (h : pyTokens (rowText r) ≠ []) :
    calculate_similarity r r = 1 := by
  unfold calculate_similarity
  have hts : tokenSet (rowText r) ≠ [] := fun hc => h ((tokenSet_eq_nil_iff _).1 hc)
  rw [tokenSetScore_self _ hts, ratDiv_eq_div]
  norm_num

theorem rowText_all_missing {r : List Cell} (h : ∀ f ∈ r, f = none) : rowText r = "" := by
  unfold rowText
  have : r.filterMap id = [] := by
    rw [List.filterMap_eq_nil_iff]
    intro a ha
    rw [h a ha]
    rfl
  rw [this]
  rfl

theorem calculate_similarity_all_missing (r1 r2 : List Cell)
    (h1 : ∀ f ∈ r1, f = none) (h2 : ∀ f ∈ r2, f = none) :
    calculate_similarity r1 r2 = 0 := by
  unfold calculate_similarity
  rw [rowText_all_missing h1, rowText_all_missing h2]
  decide

/- ### The blocking engine: characterization of `get_comparison_groups` -/

theorem keys_addToGroups (k : String) (i : Nat) : ∀ gs : List (String × List Nat),
    (addToGroups gs k i).map Prod.fst =
      if k ∈ gs.map Prod.fst then gs.map Prod.fst else gs.map Prod.fst ++ [k]
  | [] => by simp [addToGroups]
  | (k0, v0) :: gs => by
    by_cases h : k0 = k
    · subst h
      simp [addToGroups]
    · simp only [addToGroups, if_neg h, List.map_cons, keys_addToGroups k i gs]
      by_cases hm : k ∈ gs.map Prod.fst
      · rw [if_pos hm, if_pos (List.mem_cons_of_mem _ hm)]
      · rw [if_neg hm, if_neg ?_, List.cons_append]
        intro hc
        rcases List.mem_cons.1 hc with hc | hc
        · exact h hc.symm
        · exact hm hc

theorem valsOf_addToGroups_self (k : String) (i : Nat) :
    ∀ gs : List (String × List Nat), valsOf (addToGroups gs k i) k = valsOf gs k ++ [i]
  | [] => by simp [addToGroups, valsOf]
  | (k0, v0) :: gs => by
    by_cases h : k0 = k
    · subst h
      simp [addToGroups, valsOf]
    · simp only [addToGroups, if_neg h, valsOf, valsOf_addToGroups_self k i gs]

theorem valsOf_addToGroups_ne (k : String) (i : Nat) (k' : String) (h : k' ≠ k) :
    ∀ gs : List (String × List Nat), valsOf (addToGroups gs k i) k' = valsOf gs k'
  | [] => by simp [addToGroups, valsOf, Ne.symm h]
  | (k0, v0) :: gs => by
    by_cases h0 : k0 = k
    · subst h0
      simp [addToGroups, valsOf, Ne.symm h]
    · simp only [addToGroups, if_neg h0, valsOf, valsOf_addToGroups_ne k i k' h gs]

theorem vals_addToGroups_ne_nil (k : String) (i : Nat) :
    ∀ gs : List (String × List Nat), (∀ p ∈ gs, p.2 ≠ []) →
      ∀ p ∈ addToGroups gs k i, p.2 ≠ []
  | [], _, p, hp => by
    simp only [addToGroups, List.mem_singleton] at hp
    subst hp
    simp
  | (k0, v0) :: gs, hne, p, hp => by
    by_cases h : k0 = k
    · subst h
      simp only [addToGroups, eq_self_iff_true, if_true, List.mem_cons] at hp
      rcases hp with hp | hp
      · subst hp; simp
      · exact hne p (List.mem_cons_of_mem _ hp)
    · simp only [addToGroups, if_neg h, List.mem_cons] at hp
      rcases hp with hp | hp
      · subst hp; exact hne _ (List.mem_cons_self _ _)
      · exact vals_addToGroups_ne_nil k i gs
          (fun q hq => hne q (List.mem_cons_of_mem _ hq)) p hp

theorem mem_iff_valsOf : ∀ {gs : List (String × List Nat)},
    (gs.map Prod.fst).Nodup → (∀ p ∈ gs, p.2 ≠ []) →
      ∀ (k : String) (v : List Nat), ((k, v) ∈ gs ↔ valsOf gs k = v ∧ v ≠ [])
  | [], _, _, k, v => by
    simp only [List.not_mem_nil, false_iff, valsOf, not_and]
    intro h
    exact fun hv => hv h.symm
  | (k0, v0) :: gs, hnd, hne, k, v => by
    have hnd' : (gs.map Prod.fst).Nodup := (List.nodup_cons.1 hnd).2
    have hk0 : k0 ∉ gs.map Prod.fst := (List.nodup_cons.1 hnd).1
    have hne' : ∀ p ∈ gs, p.2 ≠ [] := fun p hp => hne p (List.mem_cons_of_mem _ hp)
    by_cases h : k0 = k
    · subst h
      simp only [valsOf, if_pos rfl, List.mem_cons]
      constructor
      · intro hp
        rcases hp with hp | hp
        · have hv : v0 = v := (congrArg Prod.snd hp).symm
          have hv0 : v0 ≠ [] := hne _ (List.mem_cons_self _ _)
          exact ⟨hv, hv ▸ hv0⟩
        · exact absurd (List.mem_map_of_mem Prod.fst hp) hk0
      · rintro ⟨rfl, _⟩
        exact Or.inl rfl
    · simp only [valsOf, if_neg h, List.mem_cons]
      rw [← mem_iff_valsOf hnd' hne' k v]
      constructor
      · intro hp
        rcases hp with hp | hp
        · exact absurd (congrArg Prod.fst hp).symm h
        · exact hp
      · exact Or.inr

theorem groupRowsAux_keys_nodup (lc : Nat) : ∀ (ts : List String) (i0 : Nat)
    (gs : List (String × List Nat)), (gs.map Prod.fst).Nodup →
    ((groupRowsAux lc ts i0 gs).map Prod.fst).Nodup
  | [], _, gs, h => h
  | t :: ts, i0, gs, h => by
    simp only [groupRowsAux]
    apply groupRowsAux_keys_nodup lc ts (i0 + 1)
    split_ifs with hl
    · rw [keys_addToGroups]
      split_ifs with hm
      · exact h
      · rw [List.nodup_append]
        exact ⟨h, List.nodup_singleton _, by simpa using hm⟩
    · exact h

theorem groupRowsAux_vals_ne_nil (lc : Nat) : ∀ (ts : List String) (i0 : Nat)
    (gs : List (String × List Nat)), (∀ p ∈ gs, p.2 ≠ []) →
    ∀ p ∈ groupRowsAux lc ts i0 gs, p.2 ≠ []
  | [], _, gs, h => h
  | t :: ts, i0, gs, h => by
    simp only [groupRowsAux]
    apply groupRowsAux_vals_ne_nil lc ts (i0 + 1)
    split_ifs with hl
    · exact vals_addToGroups_ne_nil _ _ gs h
    · exact h

theorem groupRowsAux_valsOf (lc : Nat) : ∀ (ts : List String) (i0 : Nat)
    (gs : List (String × List Nat)) (k : String),
    valsOf (groupRowsAux lc ts i0 gs) k = valsOf gs k ++ idxOf lc ts i0 k
  | [], _, gs, k => by simp [groupRowsAux, idxOf]
  | t :: ts, i0, gs, k => by
    simp only [groupRowsAux, idxOf]
    rw [groupRowsAux_valsOf lc ts (i0 + 1)]
    by_cases hk : keyOf lc t = some k
    · have hl : lc ≤ pyLen t := by
        by_contra hl
        simp [keyOf, hl] at hk
      have hkey : pyLower (pyTake t lc) = k := by
        simpa [keyOf, hl] using hk
      rw [if_pos hl, if_pos hk, hkey, valsOf_addToGroups_self]
      simp
    · rw [if_neg hk]
      split_ifs with hl
      · have hne : k ≠ pyLower (pyTake t lc) := by
          intro hc
          apply hk
          simp [keyOf, hl, hc.symm]
        rw [valsOf_addToGroups_ne (pyLower (pyTake t lc)) i0 k hne gs]
        simp
      · simp

theorem idxOf_eq_filter_range (lc : Nat) (k : String) : ∀ (ts : List String) (i0 : Nat),
    idxOf lc ts i0 k
      = ((List.range ts.length).filter
          (fun d => keyOf lc (ts.getD d "") = some k)).map (fun d => i0 + d)
  | [], i0 => by simp [idxOf]
  | t :: ts, i0 => by
    rw [idxOf, idxOf_eq_filter_range lc k ts (i0 + 1)]
    rw [List.length_cons, List.range_succ_eq_map, List.filter_cons]
    simp only [List.getD_cons_zero, List.getD_cons_succ]
    rw [List.filter_map]
    have hpred : ((fun d => decide (keyOf lc ((t :: ts).getD d "") = some k)) ∘ Nat.succ)
        = (fun d => decide (keyOf lc (ts.getD d "") = some k)) := by
      funext d
      simp [Function.comp]
    rw [hpred]
    have hmap : ∀ Y : List Nat,
        (Y.map Nat.succ).map (fun d => i0 + d) = Y.map (fun d => i0 + 1 + d) := by
      intro Y
      rw [List.map_map]
      exact List.map_congr_left (fun d _ => by simp [Function.comp]; omega)
    simp only [decide_eq_true_eq]
    split_ifs with h0
    · simp only [List.map_cons, Nat.add_zero, hmap]
      rfl
    · rw [hmap]
      rfl

theorem getD_map_rowText (df : List (List Cell)) : ∀ i : Nat,
    (df.map rowText).getD i "" = rowText (df.getD i []) := by
  induction df with
  | nil => intro i; rfl
  | cons r df ih =>
    intro i
    cases i with
    | zero => rfl
    | succ i => simpa using ih i

theorem keyTest_def (df : List (List Cell)) (lc i : Nat) :
    keyTest df lc i = keyOf lc ((df.map rowText).getD i "") := by
  rw [keyTest, getD_map_rowText]

theorem mem_keyClass {df : List (List Cell)} {lc : Nat} {k : String} {i : Nat} :
    i ∈ keyClass df lc k ↔ i < df.length ∧ keyTest df lc i = some k := by
  simp only [keyClass, List.mem_filter, List.mem_range, decide_eq_true_eq]

theorem idxOf_texts_eq_keyClass (df : List (List Cell)) (lc : Nat) (k : String) :
    idxOf lc (df.map rowText) 0 k = keyClass df lc k := by
  rw [idxOf_eq_filter_range, List.length_map]
  have hpred : (fun d => decide (keyOf lc ((df.map rowText).getD d "") = some k))
      = (fun d => decide (keyTest df lc d = some k)) := by
    funext d
    rw [keyTest_def]
  rw [hpred, List.map_congr_left (fun d _ => Nat.zero_add d), List.map_id']
  rfl

theorem keyClass_sorted (df : List (List Cell)) (lc : Nat) (k : String) :
    (keyClass df lc k).Sorted (· < ·) :=
  List.Sorted.filter _ (List.sorted_lt_range df.length)

/-- C5 core: the retained comparison groups are exactly the key classes with
at least two members. -/
theorem get_comparison_groups_char (df : List (List Cell)) (lc : Nat) (k : String)
    (v : List Nat) :
    (k, v) ∈ get_comparison_groups df lc ↔ 2 ≤ v.length ∧ v = keyClass df lc k := by
  unfold get_comparison_groups
  rw [List.mem_filter]
  have hnd := groupRowsAux_keys_nodup lc (df.map rowText) 0 [] (by simp)
  have hne := groupRowsAux_vals_ne_nil lc (df.map rowText) 0 [] (by simp)
  rw [mem_iff_valsOf hnd hne k v]
  rw [groupRowsAux_valsOf]
  rw [show valsOf [] k = [] from rfl, List.nil_append, idxOf_texts_eq_keyClass]
  simp only [decide_eq_true_eq]
  constructor
  · rintro ⟨⟨hvk, hvne⟩, hlen⟩
    exact ⟨by omega, hvk.symm⟩
  · rintro ⟨hlen, rfl⟩
    refine ⟨⟨rfl, ?_⟩, by omega⟩
    intro hc
    rw [hc] at hlen
    simp at hlen

theorem mem_group_value {df : List (List Cell)} {lc : Nat} {p : String × List Nat}
    (h : p ∈ get_comparison_groups df lc) :
    ∀ i ∈ p.2, i < df.length ∧ keyTest df lc i = some p.1 := by
  obtain ⟨k, v⟩ := p
  obtain ⟨-, rfl⟩ := (get_comparison_groups_char df lc k v).1 h
  exact fun i hi => mem_keyClass.1 hi

theorem group_value_sorted {df : List (List Cell)} {lc : Nat} {p : String × List Nat}
    (h : p ∈ get_comparison_groups df lc) : p.2.Sorted (· < ·) := by
  obtain ⟨k, v⟩ := p
  obtain ⟨-, rfl⟩ := (get_comparison_groups_char df lc k v).1 h
  exact keyClass_sorted df lc k

theorem group_value_nodup {df : List (List Cell)} {lc : Nat} {p : String × List Nat}
    (h : p ∈ get_comparison_groups df lc) : p.2.Nodup :=
  (group_value_sorted h).nodup

theorem groups_keys_nodup (df : List (List Cell)) (lc : Nat) :
    ((get_comparison_groups df lc).map Prod.fst).Nodup := by
  have hnd := groupRowsAux_keys_nodup lc (df.map rowText) 0 [] (by simp)
  exact hnd.sublist ((List.filter_sublist _).map Prod.fst)

theorem groups_pairwise_disjoint (df : List (List Cell)) (lc : Nat) :
    (get_comparison_groups df lc).Pairwise (fun a b => ∀ x ∈ a.2, x ∉ b.2) := by
  have hnd := groups_keys_nodup df lc
  rw [List.Nodup, List.pairwise_map] at hnd
  refine hnd.imp_of_mem ?_
  intro a b ha hb hne x hxa hxb
  have h1 := (mem_group_value ha x hxa).2
  have h2 := (mem_group_value hb x hxb).2
  rw [h1] at h2
  exact hne (Option.some.inj h2)

/- ### The duplicate grouper: inner-pass invariants -/

theorem innerScan_found_mem (df : List (List Cell)) (thr : ℚ) (idx1 : Nat) :
    ∀ (l P : List Nat) (c x : Nat),
      x ∈ (innerScan df thr idx1 l P c).found ↔
        x ∈ l ∧ x ∉ P ∧ thr ≤ calculate_similarity (df.getD idx1 []) (df.getD x [])
  | [], P, c, x => by simp [innerScan]
  | idx2 :: rest, P, c, x => by
    rw [innerScan]
    split_ifs with h1 h2
    · rw [innerScan_found_mem df thr idx1 rest P c x]
      constructor
      · rintro ⟨hm, hp, hs⟩
        exact ⟨List.mem_cons_of_mem _ hm, hp, hs⟩
      · rintro ⟨hm, hp, hs⟩
        rcases List.mem_cons.1 hm with rfl | hm
        · exact absurd h1 hp
        · exact ⟨hm, hp, hs⟩
    · simp only [List.mem_cons,
        innerScan_found_mem df thr idx1 rest (idx2 :: P) (c + 1) x]
      constructor
      · rintro (rfl | ⟨hm, hp, hs⟩)
        · exact ⟨Or.inl rfl, h1, h2⟩
        · exact ⟨Or.inr hm, fun hc => hp (Or.inr hc), hs⟩
      · rintro ⟨hm, hp, hs⟩
        by_cases hx : x = idx2
        · exact Or.inl hx
        · rcases hm with rfl | hm
          · exact Or.inl rfl
          · refine Or.inr ⟨hm, ?_, hs⟩
            intro hc
            rcases hc with hc | hc
            · exact hx hc
            · exact hp hc
    · rw [innerScan_found_mem df thr idx1 rest P (c + 1) x]
      constructor
      · rintro ⟨hm, hp, hs⟩
        exact ⟨List.mem_cons_of_mem _ hm, hp, hs⟩
      · rintro ⟨hm, hp, hs⟩
        rcases List.mem_cons.1 hm with rfl | hm
        · exact absurd hs h2
        · exact ⟨hm, hp, hs⟩

theorem innerScan_processed_eq (df : List (List Cell)) (thr : ℚ) (idx1 : Nat) :
    ∀ (l P : List Nat) (c : Nat),
      (innerScan df thr idx1 l P c).processed
        = (innerScan df thr idx1 l P c).found.reverse ++ P
  | [], P, c => by simp [innerScan]
  | idx2 :: rest, P, c => by
    rw [innerScan]
    split_ifs with h1 h2
    · exact innerScan_processed_eq df thr idx1 rest P c
    · show (innerScan df thr idx1 rest (idx2 :: P) (c + 1)).processed = _
      rw [innerScan_processed_eq df thr idx1 rest (idx2 :: P) (c + 1)]
      simp
    · exact innerScan_processed_eq df thr idx1 rest P (c + 1)

theorem mem_innerScan_processed {df : List (List Cell)} {thr : ℚ} {idx1 : Nat}
    {l P : List Nat} {c x : Nat} :
    x ∈ (innerScan df thr idx1 l P c).processed ↔
      x ∈ (innerScan df thr idx1 l P c).found ∨ x ∈ P := by
  rw [innerScan_processed_eq]
  simp

theorem innerScan_found_sublist (df : List (List Cell)) (thr : ℚ) (idx1 : Nat) :
    ∀ (l P : List Nat) (c : Nat), (innerScan df thr idx1 l P c).found.Sublist l
  | [], P, c => by simp [innerScan]
  | idx2 :: rest, P, c => by
    rw [innerScan]
    split_ifs with h1 h2
    · exact (innerScan_found_sublist df thr idx1 rest P c).trans
        (List.sublist_cons_self _ _)
    · exact (innerScan_found_sublist df thr idx1 rest (idx2 :: P) (c + 1)).cons₂ _
    · exact (innerScan_found_sublist df thr idx1 rest P (c + 1)).trans
        (List.sublist_cons_self _ _)

theorem innerScan_count_le (df : List (List Cell)) (thr : ℚ) (idx1 : Nat) :
    ∀ (l P : List Nat) (c : Nat), (innerScan df thr idx1 l P c).count ≤ c + l.length
  | [], P, c => by simp [innerScan]
  | idx2 :: rest, P, c => by
    rw [innerScan]
    split_ifs with h1 h2
    · exact (innerScan_count_le df thr idx1 rest P c).trans (by simp)
    · have := innerScan_count_le df thr idx1 rest (idx2 :: P) (c + 1)
      exact this.trans (by simp; omega)
    · have := innerScan_count_le df thr idx1 rest P (c + 1)
      exact this.trans (by simp; omega)

theorem innerScan_no_match (df : List (List Cell)) (thr : ℚ) (idx1 : Nat) :
    ∀ (l P : List Nat) (c : Nat),
      (∀ x ∈ l, ¬ thr ≤ calculate_similarity (df.getD idx1 []) (df.getD x [])) →
      (∀ x ∈ l, x ∉ P) →
      innerScan df thr idx1 l P c = ⟨[], P, c + l.length⟩
  | [], P, c, _, _ => by simp [innerScan]
  | idx2 :: rest, P, c, hsim, hP => by
    rw [innerScan]
    rw [if_neg (hP idx2 (List.mem_cons_self _ _)),
      if_neg (hsim idx2 (List.mem_cons_self _ _))]
    rw [innerScan_no_match df thr idx1 rest P (c + 1)
      (fun x hx => hsim x (List.mem_cons_of_mem _ hx))
      (fun x hx => hP x (List.mem_cons_of_mem _ hx))]
    simp only [List.length_cons, InnerRes.mk.injEq, true_and]
    omega

theorem innerScan_found_antitone (df : List (List Cell)) (t1 t2 : ℚ) (h : t1 ≤ t2)
    (idx1 : Nat) (l P : List Nat) (c1 c2 x : Nat)
    (hx : x ∈ (innerScan df t2 idx1 l P c2).found) :
    x ∈ (innerScan df t1 idx1 l P c1).found := by
  rw [innerScan_found_mem] at hx ⊢
  exact ⟨hx.1, hx.2.1, le_trans h hx.2.2⟩

/- ### The duplicate grouper: per-group and whole-run invariants -/

theorem scanGroup_inv (df : List (List Cell)) (thr : ℚ) :
    ∀ (g P : List Nat) (acc : List (List Nat)) (c : Nat),
      g.Nodup → Disjointed acc → (∀ cl ∈ acc, ∀ x ∈ cl, x ∈ P) →
      Disjointed (scanGroup df thr g P acc c).clusters
      ∧ (∀ cl ∈ (scanGroup df thr g P acc c).clusters, ∀ x ∈ cl,
          x ∈ (scanGroup df thr g P acc c).processed)
      ∧ (∀ x ∈ P, x ∈ (scanGroup df thr g P acc c).processed)
      ∧ (∀ cl ∈ (scanGroup df thr g P acc c).clusters,
          cl ∈ acc ∨ (cl.Nodup ∧ 2 ≤ cl.length ∧ (∀ x ∈ cl, x ∈ g) ∧ ∀ x ∈ cl, x ∉ P))
  | [], P, acc, c, hg, hd, hs => by
    simp only [scanGroup]
    exact ⟨hd, hs, fun x hx => hx, fun cl hcl => Or.inl hcl⟩
  | idx1 :: rest, P, acc, c, hg, hd, hs => by
    rw [scanGroup]
    have hrestnd : rest.Nodup := (List.nodup_cons.1 hg).2
    have hidx1 : idx1 ∉ rest := (List.nodup_cons.1 hg).1
    split_ifs with h1
    · -- idx1 already processed: skip
      have ih := scanGroup_inv df thr rest P acc c hrestnd hd hs
      refine ⟨ih.1, ih.2.1, ih.2.2.1, ?_⟩
      intro cl hcl
      rcases ih.2.2.2 cl hcl with h | ⟨hn, hl, hsub, hp⟩
      · exact Or.inl h
      · exact Or.inr ⟨hn, hl, fun x hx => List.mem_cons_of_mem _ (hsub x hx), hp⟩
    · -- fresh anchor idx1
      have hsubl := innerScan_found_sublist df thr idx1 rest P c
      have hcur_notP : ∀ x ∈ idx1 :: (innerScan df thr idx1 rest P c).found, x ∉ P := by
        intro x hx
        rcases List.mem_cons.1 hx with rfl | hx
        · exact h1
        · exact ((innerScan_found_mem df thr idx1 rest P c x).1 hx).2.1
      have hcur_sub : ∀ x ∈ idx1 :: (innerScan df thr idx1 rest P c).found,
          x ∈ idx1 :: rest := by
        intro x hx
        rcases List.mem_cons.1 hx with rfl | hx
        · exact List.mem_cons_self _ _
        · exact List.mem_cons_of_mem _ (hsubl.subset hx)
      have hcur_nodup : (idx1 :: (innerScan df thr idx1 rest P c).found).Nodup := by
        rw [List.nodup_cons]
        exact ⟨fun hc => hidx1 (hsubl.subset hc), hsubl.nodup hrestnd⟩
      have hP1 : ∀ x ∈ P, x ∈ idx1 :: (innerScan df thr idx1 rest P c).processed := by
        intro x hx
        exact List.mem_cons_of_mem _ (mem_innerScan_processed.2 (Or.inr hx))
      have hcurP1 : ∀ x ∈ idx1 :: (innerScan df thr idx1 rest P c).found,
          x ∈ idx1 :: (innerScan df thr idx1 rest P c).processed := by
        intro x hx
        rcases List.mem_cons.1 hx with rfl | hx
        · exact List.mem_cons_self _ _
        · exact List.mem_cons_of_mem _ (mem_innerScan_processed.2 (Or.inl hx))
      have main : ∀ acc1 : List (List Nat), Disjointed acc1 →
          (∀ cl ∈ acc1, ∀ x ∈ cl,
            x ∈ idx1 :: (innerScan df thr idx1 rest P c).processed) →
          (∀ cl ∈ acc1, cl ∈ acc ∨
            (1 < (idx1 :: (innerScan df thr idx1 rest P c).found).length ∧
              cl = idx1 :: (innerScan df thr idx1 rest P c).found)) →
          ∀ r, r = scanGroup df thr rest
              (idx1 :: (innerScan df thr idx1 rest P c).processed) acc1
              (innerScan df thr idx1 rest P c).count →
          Disjointed r.clusters
          ∧ (∀ cl ∈ r.clusters, ∀ x ∈ cl, x ∈ r.processed)
          ∧ (∀ x ∈ P, x ∈ r.processed)
          ∧ (∀ cl ∈ r.clusters, cl ∈ acc ∨
              (cl.Nodup ∧ 2 ≤ cl.length ∧ (∀ x ∈ cl, x ∈ idx1 :: rest)
                ∧ ∀ x ∈ cl, x ∉ P)) := by
        intro acc1 hd1 hsub1 hmem1 r hr
        subst hr
        have ih := scanGroup_inv df thr rest
          (idx1 :: (innerScan df thr idx1 rest P c).processed) acc1
          (innerScan df thr idx1 rest P c).count hrestnd hd1 hsub1
        refine ⟨ih.1, ih.2.1, ?_, ?_⟩
        · intro x hx
          exact ih.2.2.1 x (hP1 x hx)
        · intro cl hcl
          rcases ih.2.2.2 cl hcl with h | ⟨hn, hl, hsub, hp⟩
          · rcases hmem1 cl h with h | ⟨hlen, rfl⟩
            · exact Or.inl h
            · exact Or.inr ⟨hcur_nodup, by simpa using hlen, hcur_sub, hcur_notP⟩
          · refine Or.inr ⟨hn, hl, fun x hx => List.mem_cons_of_mem _ (hsub x hx), ?_⟩
            intro x hx hxP
            exact hp x hx (hP1 x hxP)
      simp only []
      by_cases hlen : 1 < (idx1 :: (innerScan df thr idx1 rest P c).found).length
      · rw [if_pos hlen]
        refine main (acc ++ [idx1 :: (innerScan df thr idx1 rest P c).found]) ?_ ?_ ?_ _ rfl
        · rw [Disjointed, List.pairwise_append]
          refine ⟨hd, List.pairwise_singleton _ _, ?_⟩
          intro cl hcl cur hcur x hx
          rw [List.mem_singleton] at hcur
          subst hcur
          intro hxcur
          exact hcur_notP x hxcur (hs cl hcl x hx)
        · intro cl hcl
          rcases List.mem_append.1 hcl with hcl | hcl
          · intro x hx
            exact hP1 x (hs cl hcl x hx)
          · rw [List.mem_singleton] at hcl
            subst hcl
            exact hcurP1
        · intro cl hcl
          rcases List.mem_append.1 hcl with hcl | hcl
          · exact Or.inl hcl
          · rw [List.mem_singleton] at hcl
            exact Or.inr ⟨hlen, hcl⟩
      · rw [if_neg hlen]
        refine main acc hd ?_ (fun cl hcl => Or.inl hcl) _ rfl
        intro cl hcl x hx
        exact hP1 x (hs cl hcl x hx)

theorem processGroups_inv (df : List (List Cell)) (thr : ℚ) :
    ∀ (gs : List (String × List Nat)) (P : List Nat) (acc : List (List Nat)) (c : Nat),
      (∀ p ∈ gs, p.2.Nodup) → Disjointed acc → (∀ cl ∈ acc, ∀ x ∈ cl, x ∈ P) →
      Disjointed (processGroups df thr gs P acc c).1
      ∧ (∀ cl ∈ (processGroups df thr gs P acc c).1, cl ∈ acc ∨
          (cl.Nodup ∧ 2 ≤ cl.length ∧ ∃ p ∈ gs, ∀ x ∈ cl, x ∈ p.2))
  | [], P, acc, c, hgs, hd, hs => by
    simp only [processGroups]
    exact ⟨hd, fun cl hcl => Or.inl hcl⟩
  | (k, g) :: gs, P, acc, c, hgs, hd, hs => by
    rw [processGroups]
    have hgnd : g.Nodup := hgs (k, g) (List.mem_cons_self _ _)
    have hsg := scanGroup_inv df thr g P acc c hgnd hd hs
    have ih := processGroups_inv df thr gs (scanGroup df thr g P acc c).processed
      (scanGroup df thr g P acc c).clusters (scanGroup df thr g P acc c).count
      (fun p hp => hgs p (List.mem_cons_of_mem _ hp)) hsg.1 hsg.2.1
    refine ⟨ih.1, ?_⟩
    intro cl hcl
    rcases ih.2 cl hcl with h | ⟨hn, hl, p, hp, hsub⟩
    · rcases hsg.2.2.2 cl h with h' | ⟨hn, hl, hsub, -⟩
      · exact Or.inl h'
      · exact Or.inr ⟨hn, hl, (k, g), List.mem_cons_self _ _, hsub⟩
    · exact Or.inr ⟨hn, hl, p, List.mem_cons_of_mem _ hp, hsub⟩

/-- The core structural facts about `find_duplicates`: its clusters are
pairwise disjoint, duplicate-free, of size at least two, and each is
contained in a single retained comparison group. -/
theorem find_duplicates_inv (df : List (List Cell)) (thr : ℚ) (lc : Nat) :
    Disjointed (find_duplicates df thr lc)
    ∧ ∀ cl ∈ find_duplicates df thr lc, cl.Nodup ∧ 2 ≤ cl.length ∧
        ∃ p ∈ get_comparison_groups df lc, ∀ x ∈ cl, x ∈ p.2 := by
  have h := processGroups_inv df thr (get_comparison_groups df lc) [] [] 0
    (fun p hp => group_value_nodup hp) List.Pairwise.nil (by simp)
  refine ⟨h.1, ?_⟩
  intro cl hcl
  rcases h.2 cl hcl with hc | hc
  · exact absurd hc (List.not_mem_nil cl)
  · exact hc

/- ### Comparison counting -/

theorem tri_succ (n : Nat) : (n + 1) * n / 2 = n + n * (n - 1) / 2 := by
  rw [← Nat.choose_two_right n]
  rw [show (n + 1) * n / 2 = (n + 1) * ((n + 1) - 1) / 2 by simp]
  rw [← Nat.choose_two_right (n + 1)]
  rw [Nat.choose_succ_succ' n 1, Nat.choose_one_right]

theorem tri_mono {m n : Nat} (h : m ≤ n) : m * (m - 1) / 2 ≤ n * (n - 1) / 2 := by
  rw [← Nat.choose_two_right, ← Nat.choose_two_right]
  exact Nat.choose_le_choose 2 h

theorem scanGroup_count_le (df : List (List Cell)) (thr : ℚ) :
    ∀ (g P : List Nat) (acc : List (List Nat)) (c : Nat),
      (scanGroup df thr g P acc c).count ≤ c + g.length * (g.length - 1) / 2
  | [], P, acc, c => by simp [scanGroup]
  | idx1 :: rest, P, acc, c => by
    rw [scanGroup]
    split_ifs with h1
    · refine (scanGroup_count_le df thr rest P acc c).trans ?_
      have hm := tri_mono (Nat.le_succ rest.length)
      simp only [Nat.succ_eq_add_one, Nat.add_sub_cancel] at hm
      show c + rest.length * (rest.length - 1) / 2
          ≤ c + (rest.length + 1) * ((rest.length + 1) - 1) / 2
      rw [Nat.add_sub_cancel]
      exact Nat.add_le_add_left hm c
    · simp only []
      refine le_trans (scanGroup_count_le df thr rest _ _ _) ?_
      have h3 := innerScan_count_le df thr idx1 rest P c
      have h4 := tri_succ rest.length
      show (innerScan df thr idx1 rest P c).count + rest.length * (rest.length - 1) / 2
          ≤ c + (rest.length + 1) * ((rest.length + 1) - 1) / 2
      rw [Nat.add_sub_cancel]
      generalize hT : rest.length * (rest.length - 1) / 2 = T at h4 ⊢
      generalize hT2 : (rest.length + 1) * rest.length / 2 = T2 at h4 ⊢
      omega

theorem foldl_add_shift (f : String × List Nat → Nat) :
    ∀ (gs : List (String × List Nat)) (a : Nat),
      gs.foldl (fun t kv => t + f kv) a = a + gs.foldl (fun t kv => t + f kv) 0
  | [], a => by simp
  | kv :: gs, a => by
    rw [List.foldl_cons, List.foldl_cons, foldl_add_shift f gs (a + f kv),
      foldl_add_shift f gs (0 + f kv)]
    omega

theorem calc_total_cons (kv : String × List Nat) (gs : List (String × List Nat)) :
    calculate_total_comparisons (kv :: gs)
      = kv.2.length * (kv.2.length - 1) / 2 + calculate_total_comparisons gs := by
  show (kv :: gs).foldl (fun t p => t + p.2.length * (p.2.length - 1) / 2) 0 = _
  rw [List.foldl_cons, Nat.zero_add]
  exact foldl_add_shift (fun p => p.2.length * (p.2.length - 1) / 2) gs _

theorem processGroups_count_le (df : List (List Cell)) (thr : ℚ) :
    ∀ (gs : List (String × List Nat)) (P : List Nat) (acc : List (List Nat)) (c : Nat),
      (processGroups df thr gs P acc c).2 ≤ c + calculate_total_comparisons gs
  | [], P, acc, c => by simp [processGroups, calculate_total_comparisons]
  | (k, g) :: gs, P, acc, c => by
    rw [processGroups]
    have h1 := scanGroup_count_le df thr g P acc c
    have h2 := processGroups_count_le df thr gs (scanGroup df thr g P acc c).processed
      (scanGroup df thr g P acc c).clusters (scanGroup df thr g P acc c).count
    have h3 := calc_total_cons (k, g) gs
    generalize hT : g.length * (g.length - 1) / 2 = T at h1 h3
    omega

/- ### Runs in which nothing matches: every pair is compared exactly once -/

theorem scanGroup_no_match (df : List (List Cell)) (thr : ℚ)
    (hs : ∀ i j : Nat, ¬ thr ≤ calculate_similarity (df.getD i []) (df.getD j [])) :
    ∀ (g P : List Nat) (acc : List (List Nat)) (c : Nat), g.Nodup →
      (∀ x ∈ g, x ∉ P) →
      scanGroup df thr g P acc c
        = ⟨g.reverse ++ P, acc, c + g.length * (g.length - 1) / 2⟩
  | [], P, acc, c, _, _ => by simp [scanGroup]
  | idx1 :: rest, P, acc, c, hg, hP => by
    have hrestnd : rest.Nodup := (List.nodup_cons.1 hg).2
    have hidx1 : idx1 ∉ rest := (List.nodup_cons.1 hg).1
    rw [scanGroup, if_neg (hP idx1 (List.mem_cons_self _ _))]
    simp only []
    rw [innerScan_no_match df thr idx1 rest P c (fun x _ => hs idx1 x)
      (fun x hx => hP x (List.mem_cons_of_mem _ hx))]
    rw [if_neg (by norm_num)]
    rw [scanGroup_no_match df thr hs rest (idx1 :: P) acc (c + rest.length) hrestnd ?hP']
    case hP' =>
      intro x hx
      rw [List.mem_cons]
      rintro (rfl | hxP)
      · exact hidx1 hx
      · exact hP x (List.mem_cons_of_mem _ hx) hxP
    have h4 := tri_succ rest.length
    simp only [GroupRes.mk.injEq, List.reverse_cons, List.append_assoc,
      List.singleton_append, List.length_cons, Nat.add_sub_cancel, true_and]
    generalize hT : rest.length * (rest.length - 1) / 2 = T at h4 ⊢
    generalize hT2 : (rest.length + 1) * rest.length / 2 = T2 at h4 ⊢
    omega

theorem processGroups_no_match (df : List (List Cell)) (thr : ℚ)
    (hs : ∀ i j : Nat, ¬ thr ≤ calculate_similarity (df.getD i []) (df.getD j [])) :
    ∀ (gs : List (String × List Nat)) (P : List Nat) (acc : List (List Nat)) (c : Nat),
      (∀ p ∈ gs, p.2.Nodup) → (∀ p ∈ gs, ∀ x ∈ p.2, x ∉ P) →
      gs.Pairwise (fun a b => ∀ x ∈ a.2, x ∉ b.2) →
      processGroups df thr gs P acc c = (acc, c + calculate_total_comparisons gs)
  | [], P, acc, c, _, _, _ => by simp [processGroups, calculate_total_comparisons]
  | (k, g) :: gs, P, acc, c, hnd, hP, hpw => by
    rw [processGroups]
    rw [scanGroup_no_match df thr hs g P acc c (hnd _ (List.mem_cons_self _ _))
      (hP _ (List.mem_cons_self _ _))]
    simp only []
    rw [processGroups_no_match df thr hs gs (g.reverse ++ P) acc
      (c + g.length * (g.length - 1) / 2)
      (fun p hp => hnd p (List.mem_cons_of_mem _ hp)) ?hP' ((List.pairwise_cons.1 hpw).2)]
    case hP' =>
      intro p hp x hx
      rw [List.mem_append, List.mem_reverse]
      rintro (hxg | hxP)
      · exact (List.pairwise_cons.1 hpw).1 p hp x hxg hx
      · exact hP p (List.mem_cons_of_mem _ hp) x hx hxP
    have h3 := calc_total_cons (k, g) gs
    simp only [Prod.mk.injEq, true_and]
    generalize hT : g.length * (g.length - 1) / 2 = T at h3 ⊢
    omega

/- ### Runs in which every pair matches: each block becomes one cluster -/

theorem innerScan_all_match (df : List (List Cell)) (thr : ℚ) (idx1 : Nat)
    (hs : ∀ x : Nat, thr ≤ calculate_similarity (df.getD idx1 []) (df.getD x [])) :
    ∀ (l P : List Nat) (c : Nat), l.Nodup → (∀ x ∈ l, x ∉ P) →
      innerScan df thr idx1 l P c = ⟨l, l.reverse ++ P, c + l.length⟩
  | [], P, c, _, _ => by simp [innerScan]
  | idx2 :: rest, P, c, hnd, hP => by
    rw [innerScan, if_neg (hP idx2 (List.mem_cons_self _ _)), if_pos (hs idx2)]
    rw [innerScan_all_match df thr idx1 hs rest (idx2 :: P) (c + 1)
      (List.nodup_cons.1 hnd).2 ?hP']
    case hP' =>
      intro x hx
      rw [List.mem_cons]
      rintro (rfl | hxP)
      · exact (List.nodup_cons.1 hnd).1 hx
      · exact hP x (List.mem_cons_of_mem _ hx) hxP
    simp only [InnerRes.mk.injEq, List.length_cons]
    refine ⟨trivial, by simp, by omega⟩

theorem scanGroup_all_processed (df : List (List Cell)) (thr : ℚ) :
    ∀ (g P : List Nat) (acc : List (List Nat)) (c : Nat), (∀ x ∈ g, x ∈ P) →
      scanGroup df thr g P acc c = ⟨P, acc, c⟩
  | [], P, acc, c, _ => by simp [scanGroup]
  | idx1 :: rest, P, acc, c, hP => by
    rw [scanGroup, if_pos (hP idx1 (List.mem_cons_self _ _))]
    exact scanGroup_all_processed df thr rest P acc c
      (fun x hx => hP x (List.mem_cons_of_mem _ hx))

theorem scanGroup_all_match (df : List (List Cell)) (thr : ℚ)
    (hs : ∀ i j : Nat, thr ≤ calculate_similarity (df.getD i []) (df.getD j [])) :
    ∀ (g P : List Nat) (acc : List (List Nat)) (c : Nat), g.Nodup →
      (∀ x ∈ g, x ∉ P) → 2 ≤ g.length →
      ∃ P' : List Nat, (∀ x, x ∈ P' ↔ x ∈ g ∨ x ∈ P)
        ∧ scanGroup df thr g P acc c = ⟨P', acc ++ [g], c + (g.length - 1)⟩
  | [], _, _, _, _, _, hlen => by simp at hlen
  | idx1 :: rest, P, acc, c, hnd, hP, hlen => by
    rw [scanGroup, if_neg (hP idx1 (List.mem_cons_self _ _))]
    simp only []
    rw [innerScan_all_match df thr idx1 (hs idx1) rest P c (List.nodup_cons.1 hnd).2
      (fun x hx => hP x (List.mem_cons_of_mem _ hx))]
    have hrest : rest ≠ [] := by
      intro hc
      subst hc
      simp at hlen
    rw [if_pos ?hemit]
    case hemit =>
      simp only [List.length_cons]
      have := List.length_pos.2 hrest
      omega
    rw [scanGroup_all_processed df thr rest (idx1 :: (rest.reverse ++ P))
      (acc ++ [idx1 :: rest]) (c + rest.length) ?hall]
    case hall =>
      intro x hx
      exact List.mem_cons_of_mem _ (List.mem_append.2 (Or.inl (List.mem_reverse.2 hx)))
    refine ⟨idx1 :: (rest.reverse ++ P), ?_, ?_⟩
    · intro x
      simp only [List.mem_cons, List.mem_append, List.mem_reverse]
      constructor
      · rintro (rfl | hx | hx)
        · exact Or.inl (Or.inl rfl)
        · exact Or.inl (Or.inr hx)
        · exact Or.inr hx
      · rintro ((rfl | hx) | hx)
        · exact Or.inl rfl
        · exact Or.inr (Or.inl hx)
        · exact Or.inr (Or.inr hx)
    · simp only [GroupRes.mk.injEq, List.length_cons, Nat.add_sub_cancel]

theorem processGroups_all_match (df : List (List Cell)) (thr : ℚ)
    (hs : ∀ i j : Nat, thr ≤ calculate_similarity (df.getD i []) (df.getD j [])) :
    ∀ (gs : List (String × List Nat)) (P : List Nat) (acc : List (List Nat)) (c : Nat),
      (∀ p ∈ gs, p.2.Nodup) → (∀ p ∈ gs, 2 ≤ p.2.length) →
      (∀ p ∈ gs, ∀ x ∈ p.2, x ∉ P) →
      gs.Pairwise (fun a b => ∀ x ∈ a.2, x ∉ b.2) →
      processGroups df thr gs P acc c
        = (acc ++ gs.map (fun kv => kv.2),
            c + (gs.map (fun kv => kv.2.length - 1)).sum)
  | [], P, acc, c, _, _, _, _ => by simp [processGroups]
  | (k, g) :: gs, P, acc, c, hnd, hlen2, hP, hpw => by
    rw [processGroups]
    obtain ⟨P', hP'mem, hsg⟩ := scanGroup_all_match df thr hs g P acc c
      (hnd _ (List.mem_cons_self _ _)) (hP _ (List.mem_cons_self _ _))
      (hlen2 _ (List.mem_cons_self _ _))
    rw [hsg]
    simp only []
    rw [processGroups_all_match df thr hs gs P' (acc ++ [g]) (c + (g.length - 1))
      (fun p hp => hnd p (List.mem_cons_of_mem _ hp))
      (fun p hp => hlen2 p (List.mem_cons_of_mem _ hp)) ?hP2 ((List.pairwise_cons.1 hpw).2)]
    case hP2 =>
      intro p hp x hx hxP'
      rcases (hP'mem x).1 hxP' with hxg | hxP
      · exact (List.pairwise_cons.1 hpw).1 p hp x hxg hx
      · exact hP p (List.mem_cons_of_mem _ hp) x hx hxP
    simp only [Prod.mk.injEq, List.map_cons, List.sum_cons]
    constructor
    · rw [List.append_assoc, List.singleton_append]
    · omega

theorem group_value_two_le {df : List (List Cell)} {lc : Nat} {p : String × List Nat}
    (h : p ∈ get_comparison_groups df lc) : 2 ≤ p.2.length := by
  obtain ⟨k, v⟩ := p
  exact ((get_comparison_groups_char df lc k v).1 h).1

/- ### The result annotator -/

theorem length_foldl_set (v : Int × String) :
    ∀ (ws : List Nat) (acc : List (Int × String)),
      (ws.foldl (fun a idx => a.set idx v) acc).length = acc.length
  | [], acc => rfl
  | w :: ws, acc => by
    rw [List.foldl_cons, length_foldl_set v ws, List.length_set]

theorem getElem?_foldl_set (v : Int × String) :
    ∀ (ws : List Nat) (acc : List (Int × String)) (r : Nat),
      (ws.foldl (fun a idx => a.set idx v) acc)[r]?
        = if r ∈ ws ∧ r < acc.length then some v else acc[r]?
  | [], acc, r => by simp
  | w :: ws, acc, r => by
    rw [List.foldl_cons, getElem?_foldl_set v ws (acc.set w v) r, List.length_set]
    by_cases hm : r ∈ ws ∧ r < acc.length
    · rw [if_pos hm, if_pos ⟨List.mem_cons_of_mem _ hm.1, hm.2⟩]
    · rw [if_neg hm, List.getElem?_set]
      by_cases hw : w = r
      · subst hw
        by_cases hlt : w < acc.length
        · rw [if_pos rfl, if_pos hlt, if_pos ⟨List.mem_cons_self _ _, hlt⟩]
        · rw [if_pos rfl, if_neg hlt, if_neg (fun hc => hlt hc.2)]
          exact (List.getElem?_eq_none (by omega)).symm
      · rw [if_neg hw, if_neg (fun hc =>
          (List.mem_cons.1 hc.1).elim (fun h => hw h.symm) (fun h => hm ⟨h, hc.2⟩))]

theorem annotateAux_getElem? :
    ∀ (cs : List (List Nat)) (gi : Nat) (acc : List (Int × String)) (r : Nat),
      Disjointed cs → (∀ c ∈ cs, ∀ x ∈ c, x < acc.length) →
      ((∀ c ∈ cs, r ∉ c) → (annotateAux gi cs acc)[r]? = acc[r]?)
      ∧ (∀ (i : Nat) (c : List Nat), cs[i]? = some c → r ∈ c →
          (annotateAux gi cs acc)[r]?
            = some (((gi + i : Nat) : Int) + 1,
                joinWith ", " ((List.insertionSort (· ≤ ·) c).map
                  (fun j => Nat.repr (j + 1)))))
  | [], gi, acc, r, _, _ => by
    constructor
    · intro _
      rfl
    · intro i c hc
      simp at hc
  | c0 :: cs, gi, acc, r, hd, hlt => by
    have hd' : Disjointed cs := (List.pairwise_cons.1 hd).2
    have hd0 : ∀ c ∈ cs, ∀ x ∈ c0, x ∉ c := (List.pairwise_cons.1 hd).1
    rw [annotateAux]
    have hlen1 := length_foldl_set
      ((gi : Int) + 1, joinWith ", " ((List.insertionSort (· ≤ ·) c0).map
        (fun j => Nat.repr (j + 1))))
      (List.insertionSort (· ≤ ·) c0) acc
    have hget1 := getElem?_foldl_set
      ((gi : Int) + 1, joinWith ", " ((List.insertionSort (· ≤ ·) c0).map
        (fun j => Nat.repr (j + 1))))
      (List.insertionSort (· ≤ ·) c0) acc r
    have hlt1 : ∀ c ∈ cs, ∀ x ∈ c, x <
        ((List.insertionSort (· ≤ ·) c0).foldl (fun a idx => a.set idx
          ((gi : Int) + 1, joinWith ", " ((List.insertionSort (· ≤ ·) c0).map
            (fun j => Nat.repr (j + 1))))) acc).length := by
      rw [hlen1]
      exact fun c hc x hx => hlt c (List.mem_cons_of_mem _ hc) x hx
    have ih := annotateAux_getElem? cs (gi + 1) _ r hd' hlt1
    constructor
    · intro hno
      rw [ih.1 (fun c hc => hno c (List.mem_cons_of_mem _ hc)), hget1]
      rw [if_neg (fun hc => hno c0 (List.mem_cons_self _ _)
        ((List.mem_insertionSort _).1 hc.1))]
    · intro i c hic hrc
      cases i with
      | zero =>
        have hc0 : c = c0 := by
          simpa using hic.symm
        subst hc0
        have hnos : ∀ d ∈ cs, r ∉ d := fun d hd1 => hd0 d hd1 r hrc
        rw [ih.1 hnos, hget1, if_pos ⟨(List.mem_insertionSort _).2 hrc,
          hlt c (List.mem_cons_self _ _) r hrc⟩]
        simp
      | succ j =>
        have hic' : cs[j]? = some c := by simpa using hic
        rw [ih.2 j c hic' hrc]
        have harith : gi + 1 + j = gi + (j + 1) := by omega
        rw [harith]

/- ### Claim theorems -/

/-- C1: for every input table, threshold and leadingChars, the list of
clusters returned by `find_duplicates` is pairwise disjoint (no record index
appears in more than one cluster) and every emitted cluster has at least two
(distinct) members. -/
theorem C1_clusters_disjoint_and_min_size (df : List (List Cell)) (thr : ℚ) (lc : Nat) :
    Disjointed (find_duplicates df thr lc)
    ∧ ∀ cl ∈ find_duplicates df thr lc, cl.Nodup ∧ 2 ≤ cl.length := by
  obtain ⟨h1, h2⟩ := find_duplicates_inv df thr lc
  exact ⟨h1, fun cl hcl => ⟨(h2 cl hcl).1, (h2 cl hcl).2.1⟩⟩

/-- C2: with leadingChars ≥ 1, every record index appearing in a cluster of
`find_duplicates` has a ComparisonText of length at least `lc`, and any two
indices in one cluster share the first `lc` characters of their lowercased
ComparisonText. -/
theorem C2_clusters_share_block (df : List (List Cell)) (thr : ℚ) (lc : Nat)
    (hlc : 1 ≤ lc) (cl : List Nat) (hcl : cl ∈ find_duplicates df thr lc) :
    (∀ r ∈ cl, lc ≤ pyLen (rowText (df.getD r [])))
    ∧ ∀ r1 ∈ cl, ∀ r2 ∈ cl,
        pyLower (pyTake (rowText (df.getD r1 [])) lc)
          = pyLower (pyTake (rowText (df.getD r2 [])) lc) := by
  obtain ⟨-, -, p, hp, hsub⟩ := (find_duplicates_inv df thr lc).2 cl hcl
  have hkey : ∀ r ∈ cl, keyTest df lc r = some p.1 :=
    fun r hr => (mem_group_value hp r (hsub r hr)).2
  have hlen : ∀ r ∈ cl, lc ≤ pyLen (rowText (df.getD r [])) := by
    intro r hr
    have hk := hkey r hr
    rw [keyTest, keyOf] at hk
    by_contra hc
    rw [if_neg hc] at hk
    exact Option.noConfusion hk
  refine ⟨hlen, ?_⟩
  intro r1 h1 r2 h2
  have k1 := hkey r1 h1
  have k2 := hkey r2 h2
  rw [keyTest, keyOf, if_pos (hlen r1 h1)] at k1
  rw [keyTest, keyOf, if_pos (hlen r2 h2)] at k2
  rw [Option.some.inj k1, Option.some.inj k2]

/-- Witness for C2 at a concrete table: the cluster `[0, 1]` produced at
threshold 1/2 and leadingChars 1 satisfies both conclusions. -/
theorem C2_witness :
    1 ≤ pyLen (rowText ([[some "aa"], [some "ab"]].getD 0 []))
    ∧ pyLower (pyTake (rowText ([[some "aa"], [some "ab"]].getD 0 [])) 1)
      = pyLower (pyTake (rowText ([[some "aa"], [some "ab"]].getD 1 [])) 1) :=
  ⟨(C2_clusters_share_block [[some "aa"], [some "ab"]] (Rat.divInt 1 2) 1
      (by decide) [0, 1] (by decide)).1 0 (by decide),
    (C2_clusters_share_block [[some "aa"], [some "ab"]] (Rat.divInt 1 2) 1
      (by decide) [0, 1] (by decide)).2 0 (by decide) 1 (by decide)⟩

/-- C3 counterexample: at threshold 2 (outside [0,1]) `find_duplicates` does
not reject the configuration — it runs to completion and performs one
similarity comparison on this two-row table, contradicting "no comparisons
performed". -/
theorem C3_counterexample :
    ¬ ((2 : ℚ) ≤ 1)
    ∧ (find_duplicates_full [[some "aa"], [some "ab"]] 2 1).2 = 1
    ∧ find_duplicates [[some "aa"], [some "ab"]] 2 1 = [] := by
  decide

/-- C3 amended: `find_duplicates` performs no configuration validation and
never rejects; it runs to completion for any threshold.  Above 1 no pair
matches: every blocked comparison is performed (the counter reaches
`calculate_total_comparisons`) and no clusters are returned.  At or below 0
every compared pair matches: each retained block is emitted whole as one
cluster and `n - 1` comparisons are performed per block of size `n`.  In both
invalid regimes processing fully occurs instead of a rejection. -/
theorem C3_no_validation (df : List (List Cell)) (lc : Nat) (thr : ℚ) :
    (1 < thr →
      find_duplicates df thr lc = []
      ∧ (find_duplicates_full df thr lc).2
          = calculate_total_comparisons (get_comparison_groups df lc))
    ∧ (thr ≤ 0 →
      find_duplicates df thr lc
          = (get_comparison_groups df lc).map (fun kv => kv.2)
      ∧ (find_duplicates_full df thr lc).2
          = ((get_comparison_groups df lc).map (fun kv => kv.2.length - 1)).sum) := by
  constructor
  · intro h
    have hs : ∀ i j : Nat,
        ¬ thr ≤ calculate_similarity (df.getD i []) (df.getD j []) := by
      intro i j hc
      exact absurd (le_trans hc (calculate_similarity_le_one _ _)) (not_le.2 h)
    have hpg := processGroups_no_match df thr hs (get_comparison_groups df lc) [] [] 0
      (fun p hp => group_value_nodup hp) (by simp) (groups_pairwise_disjoint df lc)
    unfold find_duplicates find_duplicates_full
    rw [hpg]
    exact ⟨rfl, by simp⟩
  · intro h
    have hs : ∀ i j : Nat, thr ≤ calculate_similarity (df.getD i []) (df.getD j []) :=
      fun i j => le_trans h (calculate_similarity_nonneg _ _)
    have hpg := processGroups_all_match df thr hs (get_comparison_groups df lc) [] [] 0
      (fun p hp => group_value_nodup hp) (fun p hp => group_value_two_le hp)
      (by simp) (groups_pairwise_disjoint df lc)
    unfold find_duplicates find_duplicates_full
    rw [hpg]
    exact ⟨by simp, by simp⟩

/-- Witness for C3's amended theorem at concrete invalid thresholds on both
sides: threshold 2 runs all comparisons and clusters nothing; threshold -1
emits the whole block as one cluster after two comparisons. -/
theorem C3_witness :
    (1 : ℚ) < 2
    ∧ (find_duplicates [[some "aa"], [some "ab"]] 2 1 = []
      ∧ (find_duplicates_full [[some "aa"], [some "ab"]] 2 1).2
          = calculate_total_comparisons (get_comparison_groups [[some "aa"], [some "ab"]] 1))
    ∧ (-1 : ℚ) ≤ 0
    ∧ (find_duplicates [[some "aa"], [some "aa"], [some "aa"]] (-1) 1
          = (get_comparison_groups [[some "aa"], [some "aa"], [some "aa"]] 1).map
              (fun kv => kv.2)
      ∧ (find_duplicates_full [[some "aa"], [some "aa"], [some "aa"]] (-1) 1).2
          = ((get_comparison_groups [[some "aa"], [some "aa"], [some "aa"]] 1).map
              (fun kv => kv.2.length - 1)).sum) :=
  ⟨by decide, (C3_no_validation [[some "aa"], [some "ab"]] 1 2).1 (by decide),
    by decide, (C3_no_validation [[some "aa"], [some "aa"], [some "aa"]] 1 (-1)).2 (by decide)⟩

/-- C4 counterexample: on this 4-row table, raising the threshold from 1/2 to
3/4 raises the number of flagged records from 2 to 3, refuting threshold
monotonicity of the greedy grouper. -/
theorem C4_counterexample :
    Rat.divInt 1 2 ≤ Rat.divInt 3 4
    ∧ ((find_duplicates [[some "b dd de df"], [some "b q"], [some "b q aa ab ac ad"],
          [some "b q cd ce cf cg"]] (Rat.divInt 1 2) 1).map List.length).sum = 2
    ∧ ((find_duplicates [[some "b dd de df"], [some "b q"], [some "b q aa ab ac ad"],
          [some "b q cd ce cf cg"]] (Rat.divInt 3 4) 1).map List.length).sum = 3
    ∧ ¬ (((find_duplicates [[some "b dd de df"], [some "b q"], [some "b q aa ab ac ad"],
          [some "b q cd ce cf cg"]] (Rat.divInt 3 4) 1).map List.length).sum
        ≤ ((find_duplicates [[some "b dd de df"], [some "b q"], [some "b q aa ab ac ad"],
          [some "b q cd ce cf cg"]] (Rat.divInt 1 2) 1).map List.length).sum) := by
  decide

/-- C4 amended: what is true is anchor-local: for a fixed anchor, remaining
list and processed set, every record matched at the higher threshold is also
matched at the lower one.  Globally the flagged-record count is not monotone
in the threshold (see the counterexample). -/
theorem C4_anchor_matches_antitone (df : List (List Cell)) (t1 t2 : ℚ) (h : t1 ≤ t2)
    (idx1 : Nat) (l P : List Nat) (c1 c2 : Nat) :
    ∀ x ∈ (innerScan df t2 idx1 l P c2).found, x ∈ (innerScan df t1 idx1 l P c1).found :=
  fun x hx => innerScan_found_antitone df t1 t2 h idx1 l P c1 c2 x hx

/-- Witness for C4's amended theorem: record 2 is matched by anchor 1 at
threshold 3/4, hence also at threshold 1/2. -/
theorem C4_witness :
    2 ∈ (innerScan [[some "b dd de df"], [some "b q"], [some "b q aa ab ac ad"],
        [some "b q cd ce cf cg"]] (Rat.divInt 1 2) 1 [2, 3] [] 0).found :=
  C4_anchor_matches_antitone [[some "b dd de df"], [some "b q"], [some "b q aa ab ac ad"],
    [some "b q cd ce cf cg"]] (Rat.divInt 1 2) (Rat.divInt 3 4) (by decide)
    1 [2, 3] [] 0 0 2 (by decide)

/-- C5: with leadingChars ≥ 1, `get_comparison_groups` maps a key to a value
exactly when that value is the full row-ordered class of indices keyed to it
and has at least 2 members; keys are unique and each value is strictly
ascending (row-index order). -/
theorem C5_groups_characterization (df : List (List Cell)) (lc : Nat) (hlc : 1 ≤ lc)
    (k : String) (v : List Nat) :
    ((k, v) ∈ get_comparison_groups df lc ↔ 2 ≤ v.length ∧ v = keyClass df lc k)
    ∧ ((get_comparison_groups df lc).map Prod.fst).Nodup
    ∧ (∀ p ∈ get_comparison_groups df lc, p.2.Sorted (· < ·)) :=
  ⟨get_comparison_groups_char df lc k v, groups_keys_nodup df lc,
    fun p hp => group_value_sorted hp⟩

/-- Witness for C5 at a concrete table: the key "a" maps to `[0, 1]`, its full
key class. -/
theorem C5_witness :
    ("a", [0, 1]) ∈ get_comparison_groups [[some "aa"], [some "ab"]] 1
    ∧ [0, 1] = keyClass [[some "aa"], [some "ab"]] 1 "a" :=
  ⟨((C5_groups_characterization [[some "aa"], [some "ab"]] 1 (by decide)
      "a" [0, 1]).1).2 ⟨by decide, by decide⟩, by decide⟩

/-- C6 counterexample: three identical rows give one group of size 3, so
`calculate_total_comparisons` is 3, but `find_duplicates` performs only 2
comparisons (the third pair is skipped once both records are matched into the
anchor's cluster). -/
theorem C6_counterexample :
    (find_duplicates_full [[some "aa"], [some "aa"], [some "aa"]] (Rat.divInt 9 10) 1).2 = 2
    ∧ calculate_total_comparisons
        (get_comparison_groups [[some "aa"], [some "aa"], [some "aa"]] 1) = 3
    ∧ (find_duplicates_full [[some "aa"], [some "aa"], [some "aa"]] (Rat.divInt 9 10) 1).2
        ≠ calculate_total_comparisons
            (get_comparison_groups [[some "aa"], [some "aa"], [some "aa"]] 1) := by
  decide

/-- C6 amended: the number of comparisons performed never exceeds
`calculate_total_comparisons` of the retained groups; equality can fail
because records already matched into a cluster are skipped in later passes. -/
theorem C6_count_le_total (df : List (List Cell)) (thr : ℚ) (lc : Nat) :
    (find_duplicates_full df thr lc).2
      ≤ calculate_total_comparisons (get_comparison_groups df lc) := by
  have h := processGroups_count_le df thr (get_comparison_groups df lc) [] [] 0
  simpa using h

/-- C7: the similarity function is symmetric. -/
theorem C7_similarity_symmetric (r1 r2 : List Cell) :
    calculate_similarity r1 r2 = calculate_similarity r2 r1 :=
  calculate_similarity_comm r1 r2

/-- C8 counterexample: a record whose single field is the non-missing string
`" "` has similarity 0 with itself, not 1: its ComparisonText has no tokens. -/
theorem C8_counterexample :
    (∃ f ∈ [some " "], f ≠ none)
    ∧ calculate_similarity [some " "] [some " "] = 0
    ∧ (0 : ℚ) ≠ 1 := by
  decide

/-- C8 amended: self-similarity is 1.0 for every record whose ComparisonText
has at least one (whitespace-separated) token, and similarity always lies in
[0,1]. -/
theorem C8_self_similarity_and_range :
    (∀ r : List Cell, pyTokens (rowText r) ≠ [] → calculate_similarity r r = 1)
    ∧ ∀ r1 r2 : List Cell,
        0 ≤ calculate_similarity r1 r2 ∧ calculate_similarity r1 r2 ≤ 1 :=
  ⟨fun r h => calculate_similarity_self r h,
    fun r1 r2 => ⟨calculate_similarity_nonneg r1 r2, calculate_similarity_le_one r1 r2⟩⟩

/-- Witness for C8's amended theorem at concrete records. -/
theorem C8_witness :
    pyTokens (rowText [some "aa"]) ≠ []
    ∧ calculate_similarity [some "aa"] [some "aa"] = 1
    ∧ 0 ≤ calculate_similarity [some "aa"] [some "ab"]
    ∧ calculate_similarity [some "aa"] [some "ab"] ≤ 1 :=
  ⟨by decide, C8_self_similarity_and_range.1 [some "aa"] (by decide),
    (C8_self_similarity_and_range.2 [some "aa"] [some "ab"]).1,
    (C8_self_similarity_and_range.2 [some "aa"] [some "ab"]).2⟩

/-- C9: after annotation, a row in no cluster carries `(-1, "")`, and a row in
the i-th emitted cluster (1-based) carries group number `i` and the
comma-separated ascending 1-based row numbers of all that cluster's members. -/
theorem C9_annotate_rows (df : List (List Cell)) (thr : ℚ) (lc : Nat) :
    (∀ r : Nat, r < df.length →
      (∀ cl ∈ find_duplicates df thr lc, r ∉ cl) →
      (annotate df.length (find_duplicates df thr lc))[r]? = some (-1, ""))
    ∧ ∀ (i : Nat) (cl : List Nat),
        (find_duplicates df thr lc)[i]? = some cl → ∀ r ∈ cl,
        (annotate df.length (find_duplicates df thr lc))[r]?
          = some ((i : Int) + 1,
              joinWith ", " ((List.insertionSort (· ≤ ·) cl).map
                (fun j => Nat.repr (j + 1)))) := by
  have hinv := find_duplicates_inv df thr lc
  have hlt' : ∀ cl ∈ find_duplicates df thr lc, ∀ x ∈ cl,
      x < (List.replicate df.length ((-1 : Int), "")).length := by
    intro cl hcl x hx
    obtain ⟨-, -, p, hp, hsub⟩ := hinv.2 cl hcl
    simpa using (mem_group_value hp x (hsub x hx)).1
  constructor
  · intro r hr hno
    have h := annotateAux_getElem? (find_duplicates df thr lc) 0
      (List.replicate df.length ((-1 : Int), "")) r hinv.1 hlt'
    rw [annotate, h.1 hno]
    simp [List.getElem?_replicate, hr]
  · intro i cl hic r hrc
    have h := annotateAux_getElem? (find_duplicates df thr lc) 0
      (List.replicate df.length ((-1 : Int), "")) r hinv.1 hlt'
    rw [annotate, h.2 i cl hic hrc]
    simp

/-- Witness for C9 at a concrete table: both rows fall into cluster 1 and are
annotated with group 1 and row list "1, 2". -/
theorem C9_witness :
    (annotate 2 (find_duplicates [[some "aa"], [some "ab"]] (Rat.divInt 1 2) 1))[0]?
      = some (1, "1, 2") := by
  have h := (C9_annotate_rows [[some "aa"], [some "ab"]] (Rat.divInt 1 2) 1).2 0 [0, 1]
    (by decide) 0 (by decide)
  calc (annotate 2 (find_duplicates [[some "aa"], [some "ab"]] (Rat.divInt 1 2) 1))[0]?
      = some (((0 : Nat) : Int) + 1,
          joinWith ", " ((List.insertionSort (· ≤ ·) [0, 1]).map
            (fun j => Nat.repr (j + 1)))) := h
    _ = some (1, "1, 2") := by decide

/-- C10: two records all of whose fields are missing have similarity 0, so
for any positive threshold they can never be grouped. -/
theorem C10_all_missing_zero (r1 r2 : List Cell)
    (h1 : ∀ f ∈ r1, f = none) (h2 : ∀ f ∈ r2, f = none) :
    calculate_similarity r1 r2 = 0
    ∧ ∀ thr : ℚ, 0 < thr → ¬ thr ≤ calculate_similarity r1 r2 := by
  have h0 := calculate_similarity_all_missing r1 r2 h1 h2
  refine ⟨h0, ?_⟩
  intro thr hthr hc
  rw [h0] at hc
  exact absurd (lt_of_lt_of_le hthr hc) (lt_irrefl 0)

/-- Witness for C10 at concrete all-missing records. -/
theorem C10_witness :
    calculate_similarity [none, none] [none] = 0
    ∧ ¬ (Rat.divInt 9 10 ≤ calculate_similarity [none, none] [none]) :=
  ⟨(C10_all_missing_zero [none, none] [none] (by decide) (by decide)).1,
    (C10_all_missing_zero [none, none] [none] (by decide) (by decide)).2
      (Rat.divInt 9 10) (by decide)⟩

end FuzzyDedup
